import Mathlib

/-!
Shallow embedding of the core of the `wakalyze` repository (src/core.rs):
calendar resolution (`parse_month`, `month_last_day`, `week_range`),
heartbeat sanitizing (`extract_entries`), session clustering
(`build_sessions`, `estimate_seconds`, `make_session`) and session
filtering (`filter_sessions`), together with proofs checking the
natural-language specification against these definitions.

Modelling conventions:
- `chrono::NaiveDate` is a year/month/day triple (chrono stores year plus
  day-ordinal; the triple carries the same information).  Chronological
  order and day arithmetic go through `NaiveDate.toDays`, a days-since
  1970-01-01 number computed by standard civil-calendar arithmetic;
  `chrono`'s `Ord` and `Duration::days` arithmetic are chronological, so
  this is the same ordering and the same stepping.
- Rust `i64`/`i32`/`u32` values are `Int`/`Nat`; none of the analysed
  operations can overflow at the input sizes fixed by the code's own
  bounds checks (4-character year field, 2-character month field).
- Rust `f64` heartbeat times are modelled as `Rat` (JSON numbers are
  decimal literals, hence rationals); the `as i64` cast truncates toward
  zero and saturates at the `i64` bounds, exactly as in Rust.
- Rust `str::trim` / `to_lowercase` are modelled by `String.trim` /
  `String.toLower`; they agree on ASCII input, which is all the claims
  exercise.
-/

/-! ## Calendar data model (chrono::NaiveDate) -/

structure NaiveDate where
  year : Int
  month : Int
  day : Int
deriving DecidableEq, Repr

/-- Proleptic-Gregorian leap-year rule, as used by chrono. -/
def isLeapYear (y : Int) : Prop :=
  y % 4 = 0 ∧ (y % 100 ≠ 0 ∨ y % 400 = 0)

instance (y : Int) : Decidable (isLeapYear y) :=
  inferInstanceAs (Decidable (y % 4 = 0 ∧ (y % 100 ≠ 0 ∨ y % 400 = 0)))

def daysInMonth (y m : Int) : Int :=
  if m = 2 then (if isLeapYear y then 29 else 28)
  else if m = 4 ∨ m = 6 ∨ m = 9 ∨ m = 11 then 30
  else 31

/-- Days since 1970-01-01 of a civil date (standard civil-calendar
conversion; Lean's `/` and `%` on `Int` are floor division for the
positive literal divisors used here, so no sign adjustment is needed). -/
def daysFromCivil (y m d : Int) : Int :=
  let yAdj : Int := if m ≤ 2 then y - 1 else y
  let era : Int := yAdj / 400
  let yoe : Int := yAdj - era * 400
  let mp : Int := (m + 9) % 12
  let doy : Int := (153 * mp + 2) / 5 + d - 1
  let doe : Int := yoe * 365 + yoe / 4 - yoe / 100 + doy
  era * 146097 + doe - 719468

def NaiveDate.toDays (dt : NaiveDate) : Int :=
  daysFromCivil dt.year dt.month dt.day

/-- The year/month/day combination denotes a real calendar day. -/
def NaiveDate.ValidYmd (dt : NaiveDate) : Prop :=
  1 ≤ dt.month ∧ dt.month ≤ 12 ∧ 1 ≤ dt.day ∧ dt.day ≤ daysInMonth dt.year dt.month

instance (dt : NaiveDate) : Decidable dt.ValidYmd :=
  inferInstanceAs (Decidable (_ ∧ _ ∧ _ ∧ _))

/-- chrono's representable year range (dates outside it make
`NaiveDate::from_ymd_opt` return `None`).  The exact extremes are far
beyond every date reachable in the analysed claims. -/
def chronoMinYear : Int := -262144

def chronoMaxYear : Int := 262143

/-- `chrono::NaiveDate::from_ymd_opt`. -/
def from_ymd_opt (y m d : Int) : Option NaiveDate :=
  if 1 ≤ m ∧ m ≤ 12 ∧ 1 ≤ d ∧ d ≤ daysInMonth y m ∧ chronoMinYear ≤ y ∧ y ≤ chronoMaxYear
  then some ⟨y, m, d⟩ else none

/-- `NaiveDate::succ_opt` on in-range dates: the next calendar day. -/
def NaiveDate.succ (dt : NaiveDate) : NaiveDate :=
  if dt.day < daysInMonth dt.year dt.month then ⟨dt.year, dt.month, dt.day + 1⟩
  else if dt.month < 12 then ⟨dt.year, dt.month + 1, 1⟩
  else ⟨dt.year + 1, 1, 1⟩

/-- `NaiveDate::pred_opt` on in-range dates: the previous calendar day. -/
def NaiveDate.pred (dt : NaiveDate) : NaiveDate :=
  if 1 < dt.day then ⟨dt.year, dt.month, dt.day - 1⟩
  else if 1 < dt.month then ⟨dt.year, dt.month - 1, daysInMonth dt.year (dt.month - 1)⟩
  else ⟨dt.year - 1, 12, 31⟩

/-- `date + chrono::Duration::days(n)` (chrono steps chronologically,
i.e. the n-fold calendar-day successor/predecessor). -/
def NaiveDate.addDays (dt : NaiveDate) (n : Int) : NaiveDate :=
  if 0 ≤ n then NaiveDate.succ^[n.toNat] dt else NaiveDate.pred^[(-n).toNat] dt

/-- `Datelike::weekday().num_days_from_sunday()`: 1970-01-01 was a
Thursday, 4 days after Sunday. -/
def NaiveDate.numDaysFromSunday (dt : NaiveDate) : Int :=
  (dt.toDays + 4) % 7

/-! ## Error type (src/error.rs, the constructors the core produces;
the remaining constructors wrap I/O and CLI failures outside the core). -/

inductive WakalyzeError where
  | InvalidMonth
  | InvalidWeek
  | WeekOutOfRange (week : Nat)
deriving DecidableEq, Repr

/-! ## Integer parsing (Rust `str::parse` for `i32` / `u32`):
an optional leading sign (`+`/`-` for `i32`, `+` for `u32`) followed by
one or more ASCII digits, rejecting overflow. -/

def digit? (c : Char) : Option Nat :=
  if 48 ≤ c.toNat ∧ c.toNat ≤ 57 then some (c.toNat - 48) else none

def digitsValAux : Nat → List Char → Option Nat
  | acc, [] => some acc
  | acc, c :: cs =>
    match digit? c with
    | some d => digitsValAux (acc * 10 + d) cs
    | none => none

/-- Decimal value of a nonempty all-digit character list, else `none`. -/
def digitsVal? (l : List Char) : Option Nat :=
  if l.isEmpty then none else digitsValAux 0 l

def parseI32 (s : List Char) : Option Int :=
  match s with
  | [] => none
  | c :: t =>
    if c = '-' then
      (digitsVal? t).bind fun v => if (v : Int) ≤ 2 ^ 31 then some (-(v : Int)) else none
    else if c = '+' then
      (digitsVal? t).bind fun v => if (v : Int) < 2 ^ 31 then some (v : Int) else none
    else
      (digitsVal? (c :: t)).bind fun v => if (v : Int) < 2 ^ 31 then some (v : Int) else none

def parseU32 (s : List Char) : Option Nat :=
  match s with
  | [] => none
  | c :: t =>
    if c = '+' then (digitsVal? t).bind fun v => if v < 2 ^ 32 then some v else none
    else (digitsVal? (c :: t)).bind fun v => if v < 2 ^ 32 then some v else none

/-- Written from the corrected claim's words: the value of a field that
is an optionally sign-prefixed (`+` or `-`) nonempty ASCII digit string,
read as a decimal integer. -/
def signedFieldVal? : List Char → Option Int
  | [] => none
  | c :: t =>
    if c = '-' then Option.map (fun v : Nat => -(v : Int)) (digitsVal? t)
    else if c = '+' then Option.map (fun v : Nat => (v : Int)) (digitsVal? t)
    else Option.map (fun v : Nat => (v : Int)) (digitsVal? (c :: t))

/-- Written from the corrected claim's words: the value of a field that
is an optionally `+`-prefixed nonempty ASCII digit string. -/
def unsignedFieldVal? : List Char → Option Nat
  | [] => none
  | c :: t => if c = '+' then digitsVal? t else digitsVal? (c :: t)

/-- Rust `str::split_once(sep)`: the pieces before and after the first
occurrence of `sep`, or `none` when `sep` does not occur. -/
def splitOnce (sep : Char) : List Char → Option (List Char × List Char)
  | [] => none
  | c :: cs =>
    if c = sep then some ([], cs)
    else (splitOnce sep cs).map fun p => (c :: p.1, p.2)

/-! ## Calendar resolver (src/core.rs lines 36-81) -/

def parse_month (s : String) : Except WakalyzeError NaiveDate :=
  match splitOnce '/' s.data with
  | none => .error .InvalidMonth
  | some (ys, ms) =>
    if ys.length = 4 ∧ ms.length = 2 then
      match parseI32 ys, parseU32 ms with
      | some y, some m =>
        match from_ymd_opt y (m : Int) 1 with
        | some d => .ok d
        | none => .error .InvalidMonth
      | _, _ => .error .InvalidMonth
    else .error .InvalidMonth

/-- Written from the corrected claim's words: `parse_month` accepts a
string splitting at its first `/` into a 4-character year field and a
2-character month field, each an optionally sign-prefixed decimal digit
string (`+` or `-` for the year, `+` for the month), with month value in
1..=12; it returns the year and month values. -/
def monthSpecParse (s : String) : Option (Int × Int) :=
  match splitOnce '/' s.data with
  | none => none
  | some (ys, ms) =>
    if ys.length = 4 ∧ ms.length = 2 then
      match signedFieldVal? ys, unsignedFieldVal? ms with
      | some y, some m => if 1 ≤ m ∧ m ≤ 12 then some (y, (m : Int)) else none
      | _, _ => none
    else none

/-- `month_last_day`: first day of the following month, stepped back one
day.  The `unwrap` on `from_ymd_opt` can only panic at the far end of
chrono's year range; that unreachable panic is modelled by a junk date. -/
def month_last_day (first_day : NaiveDate) : NaiveDate :=
  let y : Int := if first_day.month = 12 then first_day.year + 1 else first_day.year
  let m : Int := if first_day.month = 12 then 1 else first_day.month + 1
  match from_ymd_opt y m 1 with
  | some d => d.pred
  | none => ⟨0, 1, 1⟩

/-- `week_range`.  The `start > last` date comparison is chronological,
i.e. a comparison of day numbers. -/
def week_range (first_day : NaiveDate) (week : Nat) : Except WakalyzeError (NaiveDate × NaiveDate) :=
  if 1 ≤ week ∧ week ≤ 6 then
    let dow : Int := first_day.numDaysFromSunday
    let week1Start : NaiveDate := first_day.addDays (-dow)
    let start : NaiveDate := week1Start.addDays (((week - 1) * 7 : Nat) : Int)
    let endDate : NaiveDate := start.addDays 6
    let last : NaiveDate := month_last_day first_day
    if last.toDays < start.toDays then .error (.WeekOutOfRange week)
    else .ok (start, endDate)
  else .error .InvalidWeek

/-- The Sunday on or before the day number `t` (in the spec's words:
week 1 begins on the Sunday aligned at or before the month's first
day). -/
def sundayOnOrBefore (t : Int) : Int := t - (t + 4) % 7

/-! ## Heartbeat data model (src/core.rs lines 10-34) -/

structure RawHeartbeat where
  time : Option Rat
  project : Option String
deriving DecidableEq, Repr

structure HeartbeatEntry where
  time : Int
  project : Option String
deriving DecidableEq, Repr

structure Session where
  start : Int
  «end» : Int
  seconds : Int
  project : Option String
deriving DecidableEq, Repr

structure DaySessions where
  date : NaiveDate
  sessions : List Session
deriving DecidableEq, Repr

/-! ## Heartbeat sanitizer (src/core.rs lines 96-111) -/

/-- Drop leading whitespace characters. -/
def trimLeadChars : List Char → List Char
  | [] => []
  | c :: cs => if c.isWhitespace then trimLeadChars cs else c :: cs

/-- Rust `str::trim`: drop leading and trailing whitespace.  (`Rust`
trims by the Unicode `White_Space` property, `Char.isWhitespace` by its
ASCII subset; they agree on every input the claims exercise.) -/
def rustTrim (s : String) : String :=
  ⟨(trimLeadChars (trimLeadChars s.data.reverse).reverse)⟩

/-- Rust `str::to_lowercase`, on the ASCII inputs the claims exercise. -/
def rustToLower (s : String) : String := ⟨s.data.map Char.toLower⟩

/-- Rust `str::is_empty`. -/
def strIsEmpty (s : String) : Bool := s.data.isEmpty

/-- Rust `f64 as i64`: truncate toward zero, saturating at the `i64`
bounds. -/
def f64ToI64 (q : Rat) : Int :=
  max (-(2 ^ 63)) (min (2 ^ 63 - 1) (q.num.tdiv q.den))

/-- The per-record body of `extract_entries`'s `filter_map` closure for
the project field: an absent project, or one that is empty after
trimming, becomes `none`; otherwise the original string is kept. -/
def normalizeProject (p : Option String) : Option String :=
  match p with
  | none => none
  | some s => if strIsEmpty (rustTrim s) then none else some s

/-- The `filter_map` closure of `extract_entries`: records without a
time are dropped, the time is cast with `as i64`. -/
def sanitizeOne (hb : RawHeartbeat) : Option HeartbeatEntry :=
  hb.time.map fun q => { time := f64ToI64 q, project := normalizeProject hb.project }

def entryLE (a b : HeartbeatEntry) : Prop := a.time ≤ b.time

instance : DecidableRel entryLE := fun a b => inferInstanceAs (Decidable (a.time ≤ b.time))

instance : IsTotal HeartbeatEntry entryLE :=
  ⟨fun a b => Int.le_total a.time b.time⟩

instance : IsTrans HeartbeatEntry entryLE :=
  ⟨fun _ _ _ h₁ h₂ => le_trans h₁ h₂⟩

def entryLT (a b : HeartbeatEntry) : Prop := a.time < b.time

instance : IsAntisymm HeartbeatEntry entryLT :=
  ⟨fun a b h₁ h₂ => absurd (lt_trans h₁ h₂) (lt_irrefl a.time)⟩

/-- `extract_entries`: sanitize each record, then stable-sort by time
(`sort_by_key` is a stable sort; `insertionSort` is stable). -/
def extract_entries (hbs : List RawHeartbeat) : List HeartbeatEntry :=
  List.insertionSort entryLE (hbs.filterMap sanitizeOne)

/-! ## Session builder (src/core.rs lines 83-158) -/

/-- The ascending iteration order of `BTreeSet<i64>`: the distinct
values, sorted ascending. -/
def sortedUnique (l : List Int) : List Int :=
  List.insertionSort (· ≤ ·) l.dedup

/-- The `windows(2)` summation of `estimate_seconds`: add each
consecutive difference that is positive and at most `max_gap`. -/
def sumGaps (maxGap : Int) : List Int → Int
  | a :: b :: rest =>
    (if 0 < b - a ∧ b - a ≤ maxGap then b - a else 0) + sumGaps maxGap (b :: rest)
  | _ => 0

def estimate_seconds (times : List Int) (maxGap : Int) : Int :=
  sumGaps maxGap (sortedUnique times)

/-- `make_session`.  In Rust `times[0]` / `times.last().unwrap()` panic
on an empty slice; every call site passes a nonempty list, and the
unreachable panic is modelled by the 0 defaults. -/
def make_session (times : List Int) (project : Option String) (maxGap : Int) : Session :=
  { start := times.headD 0
    «end» := times.getLastD 0
    seconds := estimate_seconds times maxGap
    project := project }

/-- The invariant of a segment under construction: strictly increasing
timestamps with consecutive gaps at most `maxGap`. -/
def segRel (maxGap : Int) (a b : Int) : Prop := a < b ∧ b - a ≤ maxGap

/-- Number of distinct values met along a list, skipping exact repeats
of the previously seen value — the splitting pattern of the builder
loop on a nonpositive threshold. -/
def distinctAfter (prev : Int) : List Int → Nat
  | [] => 0
  | t :: ts => if t = prev then distinctAfter prev ts else 1 + distinctAfter t ts

/-- The main loop of `build_sessions` (lines 124-141), with the loop
state (current segment times, current project, previous time, emitted
sessions) passed explicitly. -/
def buildLoop (maxGap : Int) :
    List HeartbeatEntry → List Int → Option String → Int → List Session → List Session
  | [], curTimes, curProj, _, acc => acc ++ [make_session curTimes curProj maxGap]
  | e :: rest, curTimes, curProj, prevTime, acc =>
    if e.time = prevTime then
      buildLoop maxGap rest curTimes curProj prevTime acc
    else if e.time - prevTime ≤ maxGap ∧ e.project = curProj then
      buildLoop maxGap rest (curTimes ++ [e.time]) curProj e.time acc
    else
      buildLoop maxGap rest [e.time] e.project e.time
        (acc ++ [make_session curTimes curProj maxGap])

def build_sessions (hbs : List RawHeartbeat) (maxGap : Int) : List Session :=
  match extract_entries hbs with
  | [] => []
  | e :: rest => buildLoop maxGap rest [e.time] e.project e.time []

/-! ## Session filter (src/core.rs lines 160-197) -/

/-- `needle` begins `hay`. -/
def charsLeadWith : List Char → List Char → Bool
  | [], _ => true
  | _ :: _, [] => false
  | a :: as, b :: bs => a == b && charsLeadWith as bs

/-- `needle` occurs contiguously inside `hay` (Rust `str::contains`). -/
def hasSubChars (hay needle : List Char) : Bool :=
  match hay with
  | [] => needle.isEmpty
  | _ :: t => charsLeadWith needle hay || hasSubChars t needle

def strContainsStr (hay needle : String) : Bool :=
  hasSubChars hay.data needle.data

/-- Rust `str::split(sep)` on the underlying characters. -/
def splitCharsAux (sep : Char) : List Char → List Char → List (List Char)
  | [], cur => [cur.reverse]
  | c :: cs, cur =>
    if c = sep then cur.reverse :: splitCharsAux sep cs []
    else splitCharsAux sep cs (c :: cur)

def splitChars (sep : Char) (l : List Char) : List (List Char) :=
  splitCharsAux sep l []

/-- The needle list of `filter_sessions`: split the filter on `,`, trim
and lowercase each part, drop empty parts. -/
def needlesOf (t : String) : List String :=
  ((splitChars ',' t.data).map fun l => rustToLower (rustTrim ⟨l⟩)).filter
    fun s => !strIsEmpty s

/-- The session predicate of `filter_sessions`: the lowercased project
(absent project read as `""`) contains some needle. -/
def sessionMatches (needles : List String) (s : Session) : Bool :=
  needles.any fun n => strContainsStr (rustToLower (s.project.getD "")) n

def filter_sessions (days : List DaySessions) (filter : Option String) : List DaySessions :=
  match filter with
  | some t =>
    if strIsEmpty t then days
    else
      let needles := needlesOf t
      if needles.isEmpty then days
      else
        days.filterMap fun day =>
          let ss := day.sessions.filter (sessionMatches needles)
          if ss.isEmpty then none else some { date := day.date, sessions := ss }
  | none => days

/-! ## Shared lemmas about `sortedUnique` and `sumGaps` -/

lemma sortedUnique_cons_of_mem {t : Int} {l : List Int} (h : t ∈ l) :
    sortedUnique (t :: l) = sortedUnique l := by
  unfold sortedUnique
  rw [List.dedup_cons_of_mem h]

lemma sortedUnique_pair {a b : Int} (h : a < b) : sortedUnique [a, b] = [a, b] := by
  have hne : a ∉ ([b] : List Int) := by
    simp only [List.mem_singleton]
    omega
  unfold sortedUnique
  rw [List.dedup_cons_of_not_mem (by simpa using hne),
    List.dedup_cons_of_not_mem (List.not_mem_nil b), List.dedup_nil]
  simp only [List.insertionSort, List.orderedInsert]
  rw [if_pos (by omega)]

/-- C1: `build_sessions` reproduces the spec's worked examples: two
same-project heartbeats 300 s apart with gap 900 form one session of 300
seconds; a project change splits even within the gap; a duplicate
timestamp is ignored; and a gap of threshold+1 (901 for threshold 900)
yields two single-point sessions with 0 seconds. -/
theorem build_sessions_examples :
    build_sessions [⟨some 1000, some "foo"⟩, ⟨some 1300, some "foo"⟩] 900 =
      [⟨1000, 1300, 300, some "foo"⟩] ∧
    build_sessions [⟨some 1000, some "foo"⟩, ⟨some 1300, some "bar"⟩] 900 =
      [⟨1000, 1000, 0, some "foo"⟩, ⟨1300, 1300, 0, some "bar"⟩] ∧
    build_sessions [⟨some 1000, some "foo"⟩, ⟨some 1000, some "foo"⟩, ⟨some 1300, some "foo"⟩]
        900 =
      [⟨1000, 1300, 300, some "foo"⟩] ∧
    build_sessions [⟨some 1000, some "foo"⟩, ⟨some 1901, some "foo"⟩] 900 =
      [⟨1000, 1000, 0, some "foo"⟩, ⟨1901, 1901, 0, some "foo"⟩] ∧
    (1901 : Int) = 1000 + 900 + 1 := by
  refine ⟨?_, ?_, ?_, ?_, ?_⟩ <;> decide

/-- C5 counterexample: the month string `"2026/+2"` has a sign-prefixed,
non-zero-padded month field, so per the claim it should fail with
`InvalidMonth`; the code parses it successfully (Rust's `u32` `parse`
accepts a leading `+`). -/
theorem parse_month_sign_cex :
    parse_month "2026/+2" = .ok ⟨2026, 2, 1⟩ ∧ '+'.isDigit = false := by
  exact ⟨rfl, by decide⟩

/-- C7: `estimate_seconds` is 0 on the empty and on any singleton list;
a value already present contributes nothing extra; a single pair at
distance exactly `max_gap` contributes the full gap, one second more
contributes 0. -/
theorem estimate_seconds_spec :
    (∀ g : Int, estimate_seconds [] g = 0) ∧
    (∀ t g : Int, estimate_seconds [t] g = 0) ∧
    (∀ (l : List Int) (t g : Int), t ∈ l → estimate_seconds (t :: l) g = estimate_seconds l g) ∧
    (∀ t g : Int, 0 < g →
      estimate_seconds [t, t + g] g = g ∧ estimate_seconds [t, t + g + 1] g = 0) := by
  refine ⟨fun g => rfl, fun t g => rfl, ?_, ?_⟩
  · intro l t g h
    unfold estimate_seconds
    rw [sortedUnique_cons_of_mem h]
  · intro t g hg
    constructor
    · unfold estimate_seconds
      rw [sortedUnique_pair (by omega)]
      simp only [sumGaps]
      rw [if_pos (by omega)]
      ring
    · unfold estimate_seconds
      rw [sortedUnique_pair (by omega)]
      simp only [sumGaps]
      rw [if_neg (by omega)]
      ring

/-- C7 witness: the pair properties at `t = 7`, `max_gap = 900`. -/
theorem estimate_seconds_spec_witness :
    estimate_seconds [7, 7 + 900] 900 = 900 ∧ estimate_seconds [7, 7 + 900 + 1] 900 = 0 ∧
    estimate_seconds (5 :: [5, 105]) 900 = estimate_seconds [5, 105] 900 :=
  ⟨(estimate_seconds_spec.2.2.2 7 900 (by norm_num)).1,
   (estimate_seconds_spec.2.2.2 7 900 (by norm_num)).2,
   estimate_seconds_spec.2.2.1 [5, 105] 5 900 (by norm_num)⟩

/-! ## Sanitizer lemmas and C8 -/

lemma f64ToI64_eq_floor {q : Rat} (h0 : 0 ≤ q) (hub : q ≤ ((2 ^ 63 - 1 : Int) : Rat)) :
    f64ToI64 q = ⌊q⌋ := by
  have ht : q.num.tdiv q.den = ⌊q⌋ := by
    rw [Rat.floor_def]
    exact Int.tdiv_eq_ediv (Rat.num_nonneg.mpr h0) (Int.ofNat_nonneg _)
  have h1 : ⌊q⌋ ≤ 2 ^ 63 - 1 := by
    have := Int.floor_le_floor hub
    rwa [Int.floor_intCast] at this
  have h2 : (0 : Int) ≤ ⌊q⌋ := Int.le_floor.mpr (by exact_mod_cast h0)
  unfold f64ToI64
  rw [ht, min_eq_right h1, max_eq_right (by omega)]

lemma f64ToI64_eq_ceil {q : Rat} (h0 : q ≤ 0) (hlb : ((-(2 ^ 63) : Int) : Rat) ≤ q) :
    f64ToI64 q = ⌈q⌉ := by
  have hnum : (-q).num.tdiv (-q).den = ⌊-q⌋ := by
    rw [Rat.floor_def]
    exact Int.tdiv_eq_ediv (Rat.num_nonneg.mpr (by simpa using h0)) (Int.ofNat_nonneg _)
  have ht : q.num.tdiv q.den = ⌈q⌉ := by
    have hq : (-q).num = -q.num := Rat.neg_num q
    have hd : (-q).den = q.den := Rat.neg_den q
    rw [hq, hd, Int.neg_tdiv] at hnum
    have : q.num.tdiv q.den = -⌊-q⌋ := by omega
    rw [this, Int.floor_neg]
    ring
  have h1 : (-(2 ^ 63) : Int) ≤ ⌈q⌉ := by
    have := Int.ceil_le_ceil hlb
    rwa [Int.ceil_intCast] at this
  have h2 : ⌈q⌉ ≤ 0 := Int.ceil_le.mpr (by exact_mod_cast h0)
  unfold f64ToI64
  rw [ht, min_eq_right (by omega), max_eq_right h1]

/-- C8: `extract_entries` keeps exactly the records with a numeric time
(output is a permutation of the per-record sanitization, which drops
`none` times), converts times by truncation toward zero (floor for
nonnegative values, ceiling for nonpositive ones — not rounding), maps an
absent or trim-empty project to `none` and otherwise keeps the original
untrimmed string, and sorts the result ascending by time. -/
theorem extract_entries_spec :
    (∀ hbs, (extract_entries hbs).Pairwise entryLE) ∧
    (∀ hbs, (extract_entries hbs).Perm (hbs.filterMap sanitizeOne)) ∧
    (∀ hb : RawHeartbeat, hb.time = none → sanitizeOne hb = none) ∧
    (∀ (hb : RawHeartbeat) (q : Rat), hb.time = some q →
      sanitizeOne hb = some ⟨f64ToI64 q, normalizeProject hb.project⟩) ∧
    (∀ q : Rat, 0 ≤ q → q ≤ ((2 ^ 63 - 1 : Int) : Rat) → f64ToI64 q = ⌊q⌋) ∧
    (∀ q : Rat, q ≤ 0 → ((-(2 ^ 63) : Int) : Rat) ≤ q → f64ToI64 q = ⌈q⌉) ∧
    normalizeProject none = none ∧
    (∀ p : String, strIsEmpty (rustTrim p) = true → normalizeProject (some p) = none) ∧
    (∀ p : String, strIsEmpty (rustTrim p) = false → normalizeProject (some p) = some p) := by
  refine ⟨?_, ?_, ?_, ?_, ?_, ?_, rfl, ?_, ?_⟩
  · intro hbs
    exact List.sorted_insertionSort entryLE _
  · intro hbs
    exact List.perm_insertionSort entryLE _
  · intro hb h
    simp [sanitizeOne, h]
  · intro hb q h
    simp [sanitizeOne, h]
  · intro q h0 hub
    exact f64ToI64_eq_floor h0 hub
  · intro q h0 hlb
    exact f64ToI64_eq_ceil h0 hlb
  · intro p h
    simp [normalizeProject, h]
  · intro p h
    simp [normalizeProject, h]

/-- C8 witness: concrete instances — `10.5` truncates to `⌊10.5⌋ = 10`
(toward zero, not rounding to 11), a record without a time is dropped,
and a whitespace project becomes `none`. -/
theorem extract_entries_spec_witness :
    f64ToI64 (21 / 2 : Rat) = ⌊(21 / 2 : Rat)⌋ ∧ ⌊(21 / 2 : Rat)⌋ = 10 ∧
    sanitizeOne ⟨none, some "foo"⟩ = none ∧
    normalizeProject (some "  ") = none := by
  refine ⟨?_, ?_, ?_, ?_⟩
  · exact extract_entries_spec.2.2.2.2.1 (21 / 2) (by norm_num) (by norm_num)
  · rw [Int.floor_eq_iff]
    norm_num
  · exact extract_entries_spec.2.2.1 ⟨none, some "foo"⟩ rfl
  · exact extract_entries_spec.2.2.2.2.2.2.2.1 "  " (by decide)

/-! ## Substring characterization and C9 -/

lemma charsLeadWith_iff (n : List Char) : ∀ h : List Char,
    charsLeadWith n h = true ↔ ∃ rest, h = n ++ rest := by
  induction n with
  | nil =>
    intro h
    simp [charsLeadWith]
  | cons a as ih =>
    intro h
    cases h with
    | nil =>
      simp [charsLeadWith]
    | cons b bs =>
      simp only [charsLeadWith, Bool.and_eq_true, beq_iff_eq, List.cons_append,
        List.cons.injEq]
      constructor
      · rintro ⟨rfl, hlw⟩
        obtain ⟨rest, rfl⟩ := (ih bs).mp hlw
        exact ⟨rest, rfl, rfl⟩
      · rintro ⟨rest, rfl, rfl⟩
        exact ⟨rfl, (ih _).mpr ⟨rest, rfl⟩⟩

lemma hasSubChars_iff (n : List Char) : ∀ h : List Char,
    hasSubChars h n = true ↔ ∃ pre post, h = pre ++ n ++ post := by
  intro h
  induction h with
  | nil =>
    simp only [hasSubChars, List.isEmpty_iff]
    constructor
    · rintro rfl
      exact ⟨[], [], rfl⟩
    · rintro ⟨pre, post, heq⟩
      rcases List.append_eq_nil.mp (List.append_eq_nil.mp heq.symm).1 with ⟨-, h2⟩
      exact h2
  | cons c t ih =>
    simp only [hasSubChars, Bool.or_eq_true]
    constructor
    · rintro (hlw | hsub)
      · obtain ⟨rest, heq⟩ := (charsLeadWith_iff n _).mp hlw
        exact ⟨[], rest, by simpa using heq⟩
      · obtain ⟨pre, post, rfl⟩ := ih.mp hsub
        exact ⟨c :: pre, post, rfl⟩
    · rintro ⟨pre, post, heq⟩
      cases pre with
      | nil =>
        exact Or.inl ((charsLeadWith_iff n _).mpr ⟨post, by simpa using heq⟩)
      | cons c' pre' =>
        rw [List.cons_append, List.cons_append] at heq
        injection heq with h1 h2
        exact Or.inr (ih.mpr ⟨pre', post, h2⟩)

lemma needlesOf_of_empty (t : String) (h : strIsEmpty t = true) : needlesOf t = [] := by
  obtain ⟨data⟩ := t
  simp only [strIsEmpty, List.isEmpty_iff] at h
  subst h
  rfl

lemma filterMapDay_eq_map_filter (needles : List String) (days : List DaySessions) :
    (days.filterMap fun day =>
        let ss := day.sessions.filter (sessionMatches needles)
        if ss.isEmpty then none else some (⟨day.date, ss⟩ : DaySessions))
      = (days.map fun day =>
          (⟨day.date, day.sessions.filter (sessionMatches needles)⟩ : DaySessions)).filter
          fun day => !day.sessions.isEmpty := by
  induction days with
  | nil => rfl
  | cons d ds ih =>
    simp only [List.filterMap_cons, List.map_cons, List.filter_cons]
    cases hss : (d.sessions.filter (sessionMatches needles)).isEmpty
    · simpa [hss] using ih
    · simpa [hss] using ih

/-- C9: `filter_sessions` with no filter, or with a filter whose
comma-separated parts are all empty after trimming, returns all days
unchanged; otherwise it keeps, in original order, exactly the sessions
whose lowercased project (absent read as `""`) contains some trimmed
lowercased term as a substring, and drops days left with no session. -/
theorem filter_sessions_spec (days : List DaySessions) :
    filter_sessions days none = days ∧
    (∀ t : String, needlesOf t = [] → filter_sessions days (some t) = days) ∧
    (∀ t : String, needlesOf t ≠ [] →
      filter_sessions days (some t) =
        (days.map fun day =>
            ⟨day.date, day.sessions.filter (sessionMatches (needlesOf t))⟩).filter
          fun day => !day.sessions.isEmpty) ∧
    (∀ (needles : List String) (s : Session),
      sessionMatches needles s = true ↔
        ∃ n ∈ needles, ∃ pre post,
          (rustToLower (s.project.getD "")).data = pre ++ n.data ++ post) := by
  refine ⟨rfl, ?_, ?_, ?_⟩
  · intro t h
    show (if strIsEmpty t then days
      else if (needlesOf t).isEmpty then days
      else days.filterMap _) = days
    cases hs : strIsEmpty t
    · rw [if_neg (by simp), if_pos (by simp [h])]
    · rw [if_pos rfl]
  · intro t hne
    have hs : strIsEmpty t = false := by
      cases hs : strIsEmpty t
      · rfl
      · exact absurd (needlesOf_of_empty t hs) hne
    show (if strIsEmpty t then days
      else if (needlesOf t).isEmpty then days
      else days.filterMap fun day =>
        let ss := day.sessions.filter (sessionMatches (needlesOf t))
        if ss.isEmpty then none else some { date := day.date, sessions := ss }) = _
    rw [if_neg (by simp [hs]), if_neg (by simpa using hne)]
    exact filterMapDay_eq_map_filter (needlesOf t) days
  · intro needles s
    unfold sessionMatches
    rw [List.any_eq_true]
    constructor
    · rintro ⟨n, hm, hc⟩
      exact ⟨n, hm, (hasSubChars_iff n.data _).mp hc⟩
    · rintro ⟨n, hm, pre, post, heq⟩
      exact ⟨n, hm, (hasSubChars_iff n.data _).mpr ⟨pre, post, heq⟩⟩

/-- C9 witness: the whitespace-only filter `" , "` keeps a day with no
sessions, and the term `"pro"` matches project `"My-Project"`
case-insensitively. -/
theorem filter_sessions_spec_witness :
    filter_sessions [⟨⟨2026, 2, 1⟩, []⟩] (some " , ") = [⟨⟨2026, 2, 1⟩, []⟩] ∧
    sessionMatches ["pro"] ⟨1, 2, 1, some "My-Project"⟩ = true := by
  constructor
  · exact (filter_sessions_spec [⟨⟨2026, 2, 1⟩, []⟩]).2.1 " , " (by decide)
  · exact ((filter_sessions_spec []).2.2.2 ["pro"] ⟨1, 2, 1, some "My-Project"⟩).mpr
      ⟨"pro", by simp, ['m', 'y', '-'], ['j', 'e', 'c', 't'], by decide⟩

/-! ## Session-builder loop invariants (C2, C3, C4) -/

lemma sortedUnique_eq_self {l : List Int} (h : l.Pairwise (· < ·)) : sortedUnique l = l := by
  unfold sortedUnique
  rw [List.dedup_eq_self.mpr h.nodup]
  exact List.Sorted.insertionSort_eq (h.imp le_of_lt)

lemma headD_concat {l : List Int} (a d : Int) (h : l ≠ []) : (l ++ [a]).headD d = l.headD d := by
  cases l with
  | nil => exact absurd rfl h
  | cons x t => rfl

lemma getLastD_of_mem_getLast? {α : Type} {l : List α} {x : α} {d : α}
    (h : l.getLast? = some x) : l.getLastD d = x := by
  rw [List.getLastD_eq_getLast?, h]
  rfl

lemma sumGaps_eq_diff (maxGap : Int) :
    ∀ l : List Int, l.Chain' (segRel maxGap) → sumGaps maxGap l = l.getLastD 0 - l.headD 0
  | [] => by simp [sumGaps]
  | [a] => by simp [sumGaps]
  | a :: b :: rest => by
    intro hc
    obtain ⟨hab, hc'⟩ := List.chain'_cons.mp hc
    obtain ⟨hab1, hab2⟩ := hab
    have ih := sumGaps_eq_diff maxGap (b :: rest) hc'
    simp only [sumGaps] at ih ⊢
    rw [if_pos ⟨by omega, hab2⟩]
    simp only [List.getLastD_cons, List.headD_cons] at ih ⊢
    omega

lemma chain_headD_le_getLastD (maxGap : Int) :
    ∀ l : List Int, l.Chain' (segRel maxGap) → l.headD 0 ≤ l.getLastD 0
  | [] => by simp
  | [a] => by simp
  | a :: b :: rest => by
    intro hc
    obtain ⟨hab, hc'⟩ := List.chain'_cons.mp hc
    obtain ⟨hab1, hab2⟩ := hab
    have ih := chain_headD_le_getLastD maxGap (b :: rest) hc'
    simp only [List.getLastD_cons, List.headD_cons] at ih ⊢
    omega

lemma make_session_closed {maxGap : Int} {times : List Int} (p : Option String)
    (hc : times.Chain' (segRel maxGap)) :
    make_session times p maxGap =
      ⟨times.headD 0, times.getLastD 0, times.getLastD 0 - times.headD 0, p⟩ := by
  unfold make_session estimate_seconds
  rw [sortedUnique_eq_self
      (List.chain'_iff_pairwise.mp (List.Chain'.imp (fun a b h => h.1) hc)),
    sumGaps_eq_diff maxGap times hc]

lemma closed_session_wf {maxGap : Int} {times : List Int} (p : Option String)
    (hc : times.Chain' (segRel maxGap)) :
    (make_session times p maxGap).start ≤ (make_session times p maxGap).«end» ∧
      (make_session times p maxGap).seconds =
        (make_session times p maxGap).«end» - (make_session times p maxGap).start := by
  rw [make_session_closed p hc]
  exact ⟨chain_headD_le_getLastD maxGap times hc, rfl⟩

lemma buildLoop_wf (maxGap : Int) :
    ∀ (entries : List HeartbeatEntry) (curTimes : List Int) (curProj : Option String)
      (prevTime : Int) (acc : List Session),
      curTimes ≠ [] →
      curTimes.Chain' (segRel maxGap) →
      curTimes.getLastD 0 = prevTime →
      (∀ e ∈ entries, prevTime ≤ e.time) →
      entries.Pairwise entryLE →
      (∀ s ∈ acc, s.start ≤ s.«end» ∧ s.seconds = s.«end» - s.start) →
      acc.Chain' (fun a b => a.«end» < b.start) →
      (∀ s ∈ acc.getLast?, s.«end» < curTimes.headD 0) →
      (∀ s ∈ buildLoop maxGap entries curTimes curProj prevTime acc,
          s.start ≤ s.«end» ∧ s.seconds = s.«end» - s.start) ∧
      (buildLoop maxGap entries curTimes curProj prevTime acc).Chain'
        fun a b => a.«end» < b.start := by
  intro entries
  induction entries with
  | nil =>
    intro curTimes curProj prevTime acc hne hchain hlast _ _ hacc haccChain hlink
    simp only [buildLoop]
    constructor
    · intro s hs
      rcases List.mem_append.mp hs with hs | hs
      · exact hacc s hs
      · obtain rfl := List.mem_singleton.mp hs
        exact closed_session_wf curProj hchain
    · rw [List.chain'_append]
      refine ⟨haccChain, List.chain'_singleton _, ?_⟩
      intro x hx y hy
      have hy' : make_session curTimes curProj maxGap = y := by simpa using hy
      subst hy'
      rw [make_session_closed curProj hchain]
      exact hlink x hx
  | cons e rest ih =>
    intro curTimes curProj prevTime acc hne hchain hlast hge hpw hacc haccChain hlink
    have hgeRest : ∀ e' ∈ rest, e.time ≤ e'.time :=
      fun e' h' => (List.pairwise_cons.mp hpw).1 e' h'
    have hpwRest : rest.Pairwise entryLE := (List.pairwise_cons.mp hpw).2
    have hgeAll : ∀ e' ∈ rest, prevTime ≤ e'.time :=
      fun e' h' => le_trans (hge e (by simp)) (hgeRest e' h')
    simp only [buildLoop]
    by_cases h1 : e.time = prevTime
    · rw [if_pos h1]
      exact ih curTimes curProj prevTime acc hne hchain hlast hgeAll hpwRest hacc haccChain hlink
    · rw [if_neg h1]
      have hlt : prevTime < e.time := lt_of_le_of_ne (hge e (by simp)) fun h => h1 h.symm
      by_cases h2 : e.time - prevTime ≤ maxGap ∧ e.project = curProj
      · rw [if_pos h2]
        apply ih (curTimes ++ [e.time]) curProj e.time acc (by simp)
        · rw [List.chain'_append]
          refine ⟨hchain, List.chain'_singleton _, ?_⟩
          intro x hx y hy
          have hy' : e.time = y := by simpa using hy
          have hx' : x = prevTime := by rw [← hlast]; exact (getLastD_of_mem_getLast? hx).symm
          subst hy'; subst hx'
          exact ⟨hlt, h2.1⟩
        · rw [List.getLastD_concat]
        · exact hgeRest
        · exact hpwRest
        · exact hacc
        · exact haccChain
        · intro s hs
          rw [headD_concat e.time 0 hne]
          exact hlink s hs
      · rw [if_neg h2]
        apply ih [e.time] e.project e.time (acc ++ [make_session curTimes curProj maxGap])
          (by simp) (List.chain'_singleton _) rfl hgeRest hpwRest
        · intro s hs
          rcases List.mem_append.mp hs with hs | hs
          · exact hacc s hs
          · obtain rfl := List.mem_singleton.mp hs
            exact closed_session_wf curProj hchain
        · rw [List.chain'_append]
          refine ⟨haccChain, List.chain'_singleton _, ?_⟩
          intro x hx y hy
          have hy' : make_session curTimes curProj maxGap = y := by simpa using hy
          subst hy'
          rw [make_session_closed curProj hchain]
          exact hlink x hx
        · intro s hs
          rw [List.getLast?_concat] at hs
          have hs' : make_session curTimes curProj maxGap = s := by simpa using hs
          subst hs'
          rw [make_session_closed curProj hchain]
          show curTimes.getLastD 0 < ([e.time] : List Int).headD 0
          rw [hlast]
          exact hlt

lemma build_sessions_master (hbs : List RawHeartbeat) (maxGap : Int) :
    (∀ s ∈ build_sessions hbs maxGap,
        s.start ≤ s.«end» ∧ s.seconds = s.«end» - s.start) ∧
    (build_sessions hbs maxGap).Chain' fun a b => a.«end» < b.start := by
  unfold build_sessions
  cases he : extract_entries hbs with
  | nil => exact ⟨fun s hs => absurd hs (List.not_mem_nil s), List.chain'_nil⟩
  | cons e rest =>
    have hsorted : (e :: rest).Pairwise entryLE := by
      rw [← he]
      exact List.sorted_insertionSort entryLE _
    exact buildLoop_wf maxGap rest [e.time] e.project e.time []
      (by simp) (List.chain'_singleton _) rfl
      (fun e' h' => (List.pairwise_cons.mp hsorted).1 e' h')
      (List.pairwise_cons.mp hsorted).2
      (fun s hs => absurd hs (List.not_mem_nil s))
      List.chain'_nil
      (by simp)

lemma chain_wf_pairwise :
    ∀ l : List Session, (∀ s ∈ l, s.start ≤ s.«end») →
      l.Chain' (fun a b => a.«end» < b.start) → l.Pairwise fun a b => a.«end» < b.start
  | [], _, _ => List.Pairwise.nil
  | a :: t, hwf, hc => by
    have ihp := chain_wf_pairwise t (fun s hs => hwf s (List.mem_cons_of_mem a hs)) hc.tail
    rw [List.pairwise_cons]
    refine ⟨?_, ihp⟩
    intro b hb
    cases t with
    | nil => exact absurd hb (List.not_mem_nil b)
    | cons b0 t' =>
      have hab0 : a.«end» < b0.start := (List.chain'_cons.mp hc).1
      rcases List.mem_cons.mp hb with rfl | hb'
      · exact hab0
      · have hb0b : b0.«end» < b.start := (List.pairwise_cons.mp ihp).1 b hb'
        have hwf0 : b0.start ≤ b0.«end» := hwf b0 (by simp)
        omega

/-- C2: for every raw heartbeat list and gap threshold, every session
from `build_sessions` has `start ≤ end` and `0 ≤ seconds ≤ end − start`,
and the output is strictly ascending by `start` with each session's
whole `[start, end]` interval before the next session's `start` (so no
two sessions overlap). -/
theorem build_sessions_invariants (hbs : List RawHeartbeat) (maxGap : Int) :
    (∀ s ∈ build_sessions hbs maxGap,
        s.start ≤ s.«end» ∧ 0 ≤ s.seconds ∧ s.seconds ≤ s.«end» - s.start) ∧
    (build_sessions hbs maxGap).Pairwise fun a b => a.start < b.start ∧ a.«end» < b.start := by
  obtain ⟨hwf, hchain⟩ := build_sessions_master hbs maxGap
  constructor
  · intro s hs
    obtain ⟨h1, h2⟩ := hwf s hs
    exact ⟨h1, by omega, by omega⟩
  · have hp := chain_wf_pairwise _ (fun s hs => (hwf s hs).1) hchain
    refine hp.imp_of_mem ?_
    intro a b ha hb hab
    have hwa : a.start ≤ a.«end» := (hwf a ha).1
    exact ⟨by omega, hab⟩

/-- C2 witness: the invariants instantiated on a concrete two-heartbeat
input whose single session is `[1000, 1300]` with 300 seconds. -/
theorem build_sessions_invariants_witness :
    (⟨1000, 1300, 300, some "foo"⟩ : Session).start ≤
        (⟨1000, 1300, 300, some "foo"⟩ : Session).«end» ∧
      (0 : Int) ≤ (⟨1000, 1300, 300, some "foo"⟩ : Session).seconds ∧
      (⟨1000, 1300, 300, some "foo"⟩ : Session).seconds ≤
        (⟨1000, 1300, 300, some "foo"⟩ : Session).«end» -
          (⟨1000, 1300, 300, some "foo"⟩ : Session).start :=
  (build_sessions_invariants [⟨some 1000, some "foo"⟩, ⟨some 1300, some "foo"⟩] 900).1
    ⟨1000, 1300, 300, some "foo"⟩ (by decide)

/-- C3: for every raw heartbeat list and every positive gap threshold,
every session's `seconds` equals exactly `end − start` (no internal gap
of a segment exceeds the threshold, and duplicate-timestamp removal
loses no time). -/
theorem build_sessions_seconds_exact (hbs : List RawHeartbeat) (maxGap : Int)
    (hpos : 0 < maxGap) :
    ∀ s ∈ build_sessions hbs maxGap, s.seconds = s.«end» - s.start :=
  fun s hs => ((build_sessions_master hbs maxGap).1 s hs).2

/-- C3 witness: the exact-seconds property at a concrete input. -/
theorem build_sessions_seconds_exact_witness :
    (⟨1000, 1300, 300, some "foo"⟩ : Session).seconds =
      (⟨1000, 1300, 300, some "foo"⟩ : Session).«end» -
        (⟨1000, 1300, 300, some "foo"⟩ : Session).start :=
  build_sessions_seconds_exact [⟨some 1000, some "foo"⟩, ⟨some 1300, some "foo"⟩] 900
    (by norm_num) ⟨1000, 1300, 300, some "foo"⟩ (by decide)

/-! ## Degenerate thresholds (C4) -/

lemma estimate_seconds_single (t maxGap : Int) : estimate_seconds [t] maxGap = 0 := rfl

lemma buildLoop_nonpos (maxGap : Int) (hneg : maxGap ≤ 0) :
    ∀ (entries : List HeartbeatEntry) (curProj : Option String) (prevTime : Int)
      (acc : List Session),
      (∀ e ∈ entries, prevTime ≤ e.time) →
      entries.Pairwise entryLE →
      ∃ tail : List Session,
        buildLoop maxGap entries [prevTime] curProj prevTime acc = acc ++ tail ∧
        tail.length = 1 + distinctAfter prevTime (entries.map (·.time)) ∧
        ∀ s ∈ tail, s.start = s.«end» ∧ s.seconds = 0 := by
  intro entries
  induction entries with
  | nil =>
    intro curProj prevTime acc _ _
    refine ⟨[make_session [prevTime] curProj maxGap], rfl, rfl, ?_⟩
    intro s hs
    obtain rfl := List.mem_singleton.mp hs
    exact ⟨rfl, rfl⟩
  | cons e rest ih =>
    intro curProj prevTime acc hge hpw
    have hgeRest : ∀ e' ∈ rest, e.time ≤ e'.time :=
      fun e' h' => (List.pairwise_cons.mp hpw).1 e' h'
    have hpwRest : rest.Pairwise entryLE := (List.pairwise_cons.mp hpw).2
    simp only [buildLoop]
    by_cases h1 : e.time = prevTime
    · rw [if_pos h1]
      obtain ⟨tail, heq, hlen, hpt⟩ :=
        ih curProj prevTime acc
          (fun e' h' => le_trans (hge e (by simp)) (hgeRest e' h')) hpwRest
      refine ⟨tail, heq, ?_, hpt⟩
      rw [hlen]
      simp only [List.map_cons, distinctAfter, if_pos h1]
    · rw [if_neg h1]
      have hlt : prevTime < e.time := lt_of_le_of_ne (hge e (by simp)) fun h => h1 h.symm
      rw [if_neg (fun h => by have hgap := h.1; omega)]
      obtain ⟨tail, heq, hlen, hpt⟩ :=
        ih e.project e.time (acc ++ [make_session [prevTime] curProj maxGap]) hgeRest hpwRest
      refine ⟨make_session [prevTime] curProj maxGap :: tail, ?_, ?_, ?_⟩
      · rw [heq, List.append_assoc]
        rfl
      · simp only [List.length_cons, List.map_cons, distinctAfter, if_neg h1, hlen]
        omega
      · intro s hs
        rcases List.mem_cons.mp hs with rfl | hs'
        · exact ⟨rfl, rfl⟩
        · exact hpt s hs'

lemma distinctAfter_dedup_length :
    ∀ (ts : List Int) (t : Int), (t :: ts).Pairwise (· ≤ ·) →
      1 + distinctAfter t ts = (t :: ts).dedup.length
  | [], t, _ => by simp [distinctAfter]
  | u :: us, t, hpw => by
    have hpw' : (u :: us).Pairwise (· ≤ ·) := (List.pairwise_cons.mp hpw).2
    have htu : t ≤ u := (List.pairwise_cons.mp hpw).1 u (by simp)
    have ih := distinctAfter_dedup_length us u hpw'
    by_cases h : u = t
    · subst h
      rw [List.dedup_cons_of_mem (by simp : u ∈ u :: us)]
      simpa [distinctAfter] using ih
    · have htu' : t < u := lt_of_le_of_ne htu fun hh => h hh.symm
      have hnm : t ∉ u :: us := by
        intro hm
        rcases List.mem_cons.mp hm with rfl | hm'
        · exact h rfl
        · have : u ≤ t := (List.pairwise_cons.mp hpw').1 t hm'
          omega
      rw [List.dedup_cons_of_not_mem hnm]
      simp only [distinctAfter, if_neg h, List.length_cons]
      omega

/-- C4 counterexample: two usable records with the same timestamp and
`max_gap = 0` produce one session, not one session per usable record as
the claim states. -/
theorem build_sessions_nonpos_gap_cex :
    (([⟨some 1000, some "foo"⟩, ⟨some 1000, some "foo"⟩] : List RawHeartbeat).filterMap
        sanitizeOne).length = 2 ∧
    (build_sessions [⟨some 1000, some "foo"⟩, ⟨some 1000, some "foo"⟩] 0).length = 1 := by
  exact ⟨by decide, by decide⟩

/-- C4 (amended): when `max_gap_seconds ≤ 0`, every heartbeat with a
distinct (truncated) timestamp becomes its own single-point session —
the output has exactly one session per distinct usable timestamp, each
with `start = end` and `seconds = 0`; exact duplicate timestamps are
still skipped, so duplicated records do not add sessions. -/
theorem build_sessions_nonpos_gap (hbs : List RawHeartbeat) (maxGap : Int)
    (hneg : maxGap ≤ 0) :
    (build_sessions hbs maxGap).length =
      ((extract_entries hbs).map (·.time)).dedup.length ∧
    ∀ s ∈ build_sessions hbs maxGap, s.start = s.«end» ∧ s.seconds = 0 := by
  cases he : extract_entries hbs with
  | nil =>
    have hb : build_sessions hbs maxGap = [] := by
      unfold build_sessions
      rw [he]
    rw [hb]
    exact ⟨rfl, fun s hs => absurd hs (List.not_mem_nil s)⟩
  | cons e rest =>
    have hsorted : (e :: rest).Pairwise entryLE := by
      rw [← he]
      exact List.sorted_insertionSort entryLE _
    obtain ⟨tail, heq, hlen, hpt⟩ :=
      buildLoop_nonpos maxGap hneg rest e.project e.time []
        (fun e' h' => (List.pairwise_cons.mp hsorted).1 e' h')
        (List.pairwise_cons.mp hsorted).2
    have hb : build_sessions hbs maxGap = buildLoop maxGap rest [e.time] e.project e.time [] := by
      unfold build_sessions
      rw [he]
    rw [hb, heq, List.nil_append]
    constructor
    · rw [hlen, List.map_cons]
      exact distinctAfter_dedup_length (rest.map (·.time)) e.time
        (by
          rw [← List.map_cons]
          exact List.pairwise_map.mpr (hsorted.imp fun h => h))
    · exact hpt

/-- C4 witness: the amended statement instantiated on the duplicate
input — two usable records, one distinct timestamp, one session. -/
theorem build_sessions_nonpos_gap_witness :
    (build_sessions [⟨some 1000, some "foo"⟩, ⟨some 1000, some "foo"⟩] 0).length =
      ((extract_entries [⟨some 1000, some "foo"⟩, ⟨some 1000, some "foo"⟩]).map
          (·.time)).dedup.length :=
  (build_sessions_nonpos_gap [⟨some 1000, some "foo"⟩, ⟨some 1000, some "foo"⟩] 0
    (le_refl 0)).1

/-! ## Permutation invariance (C10) -/

/-- C10: when the usable records have pairwise-distinct truncated
timestamps, `build_sessions` gives the same output on any permutation
of the raw heartbeat list (entries are sorted by time first, and with
distinct keys the sorted sequence is unique). -/
theorem build_sessions_perm_inv (hbs₁ hbs₂ : List RawHeartbeat) (maxGap : Int)
    (hp : hbs₁.Perm hbs₂)
    (hd : ((hbs₁.filterMap sanitizeOne).map (·.time)).Nodup) :
    build_sessions hbs₁ maxGap = build_sessions hbs₂ maxGap := by
  suffices h : extract_entries hbs₁ = extract_entries hbs₂ by
    unfold build_sessions
    rw [h]
  have hperm : (extract_entries hbs₁).Perm (extract_entries hbs₂) :=
    (List.perm_insertionSort entryLE _).trans
      ((hp.filterMap sanitizeOne).trans (List.perm_insertionSort entryLE _).symm)
  have hnd₁ : ((extract_entries hbs₁).map (·.time)).Nodup :=
    (List.Perm.nodup_iff ((List.perm_insertionSort entryLE _).map _)).mpr hd
  have hstrict : ∀ l : List HeartbeatEntry, l.Pairwise entryLE →
      (l.map (·.time)).Nodup → l.Pairwise entryLT := by
    intro l hle hnd
    have hne : l.Pairwise fun a b => a.time ≠ b.time := List.pairwise_map.mp hnd
    exact (hle.and hne).imp fun h => lt_of_le_of_ne h.1 h.2
  have hnd₂ : ((extract_entries hbs₂).map (·.time)).Nodup :=
    (List.Perm.nodup_iff (hperm.map _)).mp hnd₁
  have hs₁ : (extract_entries hbs₁).Pairwise entryLT :=
    hstrict _ (List.sorted_insertionSort entryLE _) hnd₁
  have hs₂ : (extract_entries hbs₂).Pairwise entryLT :=
    hstrict _ (List.sorted_insertionSort entryLE _) hnd₂
  exact List.eq_of_perm_of_sorted hperm hs₁ hs₂

/-- C10 witness: swapping two distinct-time heartbeats leaves the
session list unchanged. -/
theorem build_sessions_perm_inv_witness :
    build_sessions [⟨some 1300, some "foo"⟩, ⟨some 1000, some "bar"⟩] 900 =
      build_sessions [⟨some 1000, some "bar"⟩, ⟨some 1300, some "foo"⟩] 900 :=
  build_sessions_perm_inv _ _ 900 (List.Perm.swap _ _ _) (by decide)

/-! ## Calendar stepping lemmas (C6) -/

lemma daysInMonth_pos (y m : Int) : 1 ≤ daysInMonth y m := by
  unfold daysInMonth
  split_ifs <;> norm_num

lemma daysInMonth_twelve (y : Int) : daysInMonth y 12 = 31 := by
  norm_num [daysInMonth]

lemma daysInMonth_one (y : Int) : daysInMonth y 1 = 31 := by
  norm_num [daysInMonth]

lemma daysFromCivil_day_succ (y m d : Int) :
    daysFromCivil y m (d + 1) = daysFromCivil y m d + 1 := by
  simp only [daysFromCivil]
  split <;> omega

lemma daysFromCivil_month_step (y m : Int) (h1 : 1 ≤ m) (h2 : m ≤ 11) :
    daysFromCivil y (m + 1) 1 = daysFromCivil y m (daysInMonth y m) + 1 := by
  interval_cases m <;>
    (simp only [daysFromCivil, daysInMonth, isLeapYear]; split_ifs <;> first | omega | tauto)

lemma daysFromCivil_year_step (y : Int) :
    daysFromCivil (y + 1) 1 1 = daysFromCivil y 12 31 + 1 := by
  simp only [daysFromCivil]
  split_ifs <;> omega

lemma toDays_succ {dt : NaiveDate} (h : dt.ValidYmd) :
    dt.succ.toDays = dt.toDays + 1 := by
  obtain ⟨hm1, hm2, hd1, hd2⟩ := h
  unfold NaiveDate.succ NaiveDate.toDays
  by_cases hlt : dt.day < daysInMonth dt.year dt.month
  · rw [if_pos hlt]
    exact daysFromCivil_day_succ dt.year dt.month dt.day
  · rw [if_neg hlt]
    have hde : dt.day = daysInMonth dt.year dt.month := by omega
    by_cases hm : dt.month < 12
    · rw [if_pos hm, hde]
      exact daysFromCivil_month_step dt.year dt.month hm1 (by omega)
    · rw [if_neg hm]
      have hm12 : dt.month = 12 := by omega
      have h31 : dt.day = 31 := by rw [hde, hm12, daysInMonth_twelve]
      rw [hm12, h31] at hde ⊢
      exact daysFromCivil_year_step dt.year

lemma succ_validYmd {dt : NaiveDate} (h : dt.ValidYmd) : dt.succ.ValidYmd := by
  obtain ⟨hm1, hm2, hd1, hd2⟩ := h
  have hp1 := daysInMonth_pos dt.year (dt.month + 1)
  have hp2 := daysInMonth_pos (dt.year + 1) 1
  unfold NaiveDate.succ
  by_cases hlt : dt.day < daysInMonth dt.year dt.month
  · rw [if_pos hlt]
    refine ⟨?_, ?_, ?_, ?_⟩ <;> dsimp only <;> omega
  · rw [if_neg hlt]
    by_cases hm : dt.month < 12
    · rw [if_pos hm]
      refine ⟨?_, ?_, ?_, ?_⟩ <;> dsimp only <;> omega
    · rw [if_neg hm]
      refine ⟨?_, ?_, ?_, ?_⟩ <;> dsimp only <;> omega

lemma toDays_pred {dt : NaiveDate} (h : dt.ValidYmd) :
    dt.pred.toDays = dt.toDays - 1 := by
  obtain ⟨hm1, hm2, hd1, hd2⟩ := h
  unfold NaiveDate.pred
  by_cases hgt : 1 < dt.day
  · rw [if_pos hgt]
    show daysFromCivil dt.year dt.month (dt.day - 1) =
      daysFromCivil dt.year dt.month dt.day - 1
    have := daysFromCivil_day_succ dt.year dt.month (dt.day - 1)
    simp only [sub_add_cancel] at this
    omega
  · rw [if_neg hgt]
    have hd : dt.day = 1 := by omega
    by_cases hm : 1 < dt.month
    · rw [if_pos hm]
      show daysFromCivil dt.year (dt.month - 1) (daysInMonth dt.year (dt.month - 1)) =
        daysFromCivil dt.year dt.month dt.day - 1
      have := daysFromCivil_month_step dt.year (dt.month - 1) (by omega) (by omega)
      simp only [sub_add_cancel] at this
      rw [hd]
      omega
    · rw [if_neg hm]
      have hm1' : dt.month = 1 := by omega
      show daysFromCivil (dt.year - 1) 12 31 = daysFromCivil dt.year dt.month dt.day - 1
      have := daysFromCivil_year_step (dt.year - 1)
      simp only [sub_add_cancel] at this
      rw [hm1', hd]
      omega

lemma pred_validYmd {dt : NaiveDate} (h : dt.ValidYmd) : dt.pred.ValidYmd := by
  obtain ⟨hm1, hm2, hd1, hd2⟩ := h
  have hp1 := daysInMonth_pos dt.year (dt.month - 1)
  have h31 : daysInMonth (dt.year - 1) 12 = 31 := daysInMonth_twelve _
  unfold NaiveDate.pred
  by_cases hgt : 1 < dt.day
  · rw [if_pos hgt]
    refine ⟨?_, ?_, ?_, ?_⟩ <;> dsimp only <;> omega
  · rw [if_neg hgt]
    by_cases hm : 1 < dt.month
    · rw [if_pos hm]
      refine ⟨?_, ?_, ?_, ?_⟩ <;> dsimp only <;> omega
    · rw [if_neg hm]
      refine ⟨?_, ?_, ?_, ?_⟩ <;> dsimp only <;> omega

lemma succ_iterate_spec (k : Nat) {dt : NaiveDate} (h : dt.ValidYmd) :
    (NaiveDate.succ^[k] dt).toDays = dt.toDays + k ∧ (NaiveDate.succ^[k] dt).ValidYmd := by
  induction k with
  | zero => exact ⟨by simp, h⟩
  | succ n ihn =>
    rw [Function.iterate_succ_apply']
    obtain ⟨ih1, ih2⟩ := ihn
    refine ⟨?_, succ_validYmd ih2⟩
    rw [toDays_succ ih2, ih1]
    push_cast
    ring

lemma pred_iterate_spec (k : Nat) {dt : NaiveDate} (h : dt.ValidYmd) :
    (NaiveDate.pred^[k] dt).toDays = dt.toDays - k ∧ (NaiveDate.pred^[k] dt).ValidYmd := by
  induction k with
  | zero => exact ⟨by simp, h⟩
  | succ n ihn =>
    rw [Function.iterate_succ_apply']
    obtain ⟨ih1, ih2⟩ := ihn
    refine ⟨?_, pred_validYmd ih2⟩
    rw [toDays_pred ih2, ih1]
    push_cast
    ring

lemma addDays_spec {dt : NaiveDate} (h : dt.ValidYmd) (n : Int) :
    (dt.addDays n).toDays = dt.toDays + n ∧ (dt.addDays n).ValidYmd := by
  unfold NaiveDate.addDays
  by_cases hn : 0 ≤ n
  · rw [if_pos hn]
    obtain ⟨h1, h2⟩ := succ_iterate_spec n.toNat h
    exact ⟨by rw [h1]; congr 1; omega, h2⟩
  · rw [if_neg hn]
    obtain ⟨h1, h2⟩ := pred_iterate_spec (-n).toNat h
    exact ⟨by rw [h1]; omega, h2⟩

lemma month_last_day_eq (dt : NaiveDate) (hv : dt.ValidYmd)
    (hy1 : chronoMinYear ≤ dt.year) (hy2 : dt.year < chronoMaxYear) :
    month_last_day dt = ⟨dt.year, dt.month, daysInMonth dt.year dt.month⟩ := by
  obtain ⟨hm1, hm2, hd1, hd2⟩ := hv
  unfold month_last_day
  by_cases hm : dt.month = 12
  · rw [if_pos hm, if_pos hm]
    have hfy : from_ymd_opt (dt.year + 1) 1 1 = some ⟨dt.year + 1, 1, 1⟩ := by
      unfold from_ymd_opt
      rw [if_pos ⟨le_refl 1, by omega, le_refl 1, by rw [daysInMonth_one]; norm_num,
        by omega, by omega⟩]
    show (match from_ymd_opt (dt.year + 1) 1 1 with
      | some d => d.pred
      | none => (⟨0, 1, 1⟩ : NaiveDate)) = _
    rw [hfy]
    show NaiveDate.pred ⟨dt.year + 1, 1, 1⟩ = _
    unfold NaiveDate.pred
    dsimp only
    rw [if_neg (by omega), if_neg (by omega)]
    rw [hm, daysInMonth_twelve]
    simp only [NaiveDate.mk.injEq, and_true]
    omega
  · rw [if_neg hm, if_neg hm]
    have hfy : from_ymd_opt dt.year (dt.month + 1) 1 = some ⟨dt.year, dt.month + 1, 1⟩ := by
      unfold from_ymd_opt
      rw [if_pos ⟨by omega, by omega, le_refl 1, daysInMonth_pos _ _, hy1, by omega⟩]
    show (match from_ymd_opt dt.year (dt.month + 1) 1 with
      | some d => d.pred
      | none => (⟨0, 1, 1⟩ : NaiveDate)) = _
    rw [hfy]
    show NaiveDate.pred ⟨dt.year, dt.month + 1, 1⟩ = _
    unfold NaiveDate.pred
    dsimp only
    rw [if_neg (by omega), if_pos (by omega)]
    simp only [NaiveDate.mk.injEq, true_and]
    refine ⟨by omega, ?_⟩
    congr 1
    omega

lemma week_range_eq (fd : NaiveDate) (week : Nat) :
    week_range fd week =
      if 1 ≤ week ∧ week ≤ 6 then
        if (month_last_day fd).toDays <
            ((fd.addDays (-fd.numDaysFromSunday)).addDays (((week - 1) * 7 : Nat) : Int)).toDays
        then .error (.WeekOutOfRange week)
        else .ok
          ((fd.addDays (-fd.numDaysFromSunday)).addDays (((week - 1) * 7 : Nat) : Int),
            ((fd.addDays (-fd.numDaysFromSunday)).addDays
                (((week - 1) * 7 : Nat) : Int)).addDays 6)
      else .error .InvalidWeek := rfl

/-- C6: `week_range` fails with `InvalidWeek` exactly when `week` is
outside `1..=6`; on success the range starts at the Sunday on or before
`first_day` (a day number that is a Sunday, at most `first_day`, and
less than 7 days before it) shifted by `(week−1)*7` days, and ends
exactly 6 days later (not clamped to the month); it fails with
`WeekOutOfRange(week)` exactly when the week number is valid but the
computed start falls after the last day of `first_day`'s month.  Stated
for dates below chrono's maximum year, where `month_last_day` cannot
panic. -/
theorem week_range_spec (fd : NaiveDate) (week : Nat) (hv : fd.ValidYmd)
    (hy1 : chronoMinYear ≤ fd.year) (hy2 : fd.year < chronoMaxYear) :
    (week_range fd week = .error .InvalidWeek ↔ ¬(1 ≤ week ∧ week ≤ 6)) ∧
    ((sundayOnOrBefore fd.toDays + 4) % 7 = 0 ∧
      sundayOnOrBefore fd.toDays ≤ fd.toDays ∧
      fd.toDays - sundayOnOrBefore fd.toDays < 7) ∧
    (∀ s e, week_range fd week = .ok (s, e) →
      s.toDays = sundayOnOrBefore fd.toDays + ((week : Int) - 1) * 7 ∧
      e.toDays = s.toDays + 6 ∧
      s.toDays ≤ (⟨fd.year, fd.month, daysInMonth fd.year fd.month⟩ : NaiveDate).toDays) ∧
    (week_range fd week = .error (.WeekOutOfRange week) ↔
      (1 ≤ week ∧ week ≤ 6) ∧
        (⟨fd.year, fd.month, daysInMonth fd.year fd.month⟩ : NaiveDate).toDays <
          sundayOnOrBefore fd.toDays + ((week : Int) - 1) * 7) := by
  have hsun : (sundayOnOrBefore fd.toDays + 4) % 7 = 0 ∧
      sundayOnOrBefore fd.toDays ≤ fd.toDays ∧
      fd.toDays - sundayOnOrBefore fd.toDays < 7 := by
    unfold sundayOnOrBefore
    omega
  obtain ⟨hw1d, hw1v⟩ := addDays_spec hv (-fd.numDaysFromSunday)
  obtain ⟨hstd, hstv⟩ := addDays_spec hw1v (((week - 1) * 7 : Nat) : Int)
  obtain ⟨hendd, _⟩ := addDays_spec hstv 6
  have hml := month_last_day_eq fd hv hy1 hy2
  rw [week_range_eq]
  by_cases hwk : 1 ≤ week ∧ week ≤ 6
  · rw [if_pos hwk]
    have hcast : (((week - 1) * 7 : Nat) : Int) = ((week : Int) - 1) * 7 := by
      have h1 := hwk.1
      omega
    have hsd : ((fd.addDays (-fd.numDaysFromSunday)).addDays
        (((week - 1) * 7 : Nat) : Int)).toDays =
        sundayOnOrBefore fd.toDays + ((week : Int) - 1) * 7 := by
      rw [hstd, hw1d, hcast]
      unfold sundayOnOrBefore NaiveDate.numDaysFromSunday
      ring
    by_cases hcmp : (month_last_day fd).toDays <
        ((fd.addDays (-fd.numDaysFromSunday)).addDays (((week - 1) * 7 : Nat) : Int)).toDays
    · rw [if_pos hcmp]
      refine ⟨by simp [hwk], hsun, ?_, ?_⟩
      · intro s e h
        exact absurd h (by simp)
      · refine ⟨fun _ => ⟨hwk, ?_⟩, fun _ => rfl⟩
        rw [hml] at hcmp
        rw [← hsd]
        exact hcmp
    · rw [if_neg hcmp]
      refine ⟨by simp [hwk], hsun, ?_, ?_⟩
      · intro s e h
        rw [Except.ok.injEq, Prod.mk.injEq] at h
        obtain ⟨hs, he⟩ := h
        subst hs
        subst he
        refine ⟨hsd, by rw [hendd], ?_⟩
        rw [hml] at hcmp
        omega
      · refine ⟨fun h => absurd h (by simp), ?_⟩
        rintro ⟨-, hlt2⟩
        exfalso
        apply hcmp
        rw [hml, hsd]
        exact hlt2
  · rw [if_neg hwk]
    refine ⟨⟨fun _ => hwk, fun _ => rfl⟩, hsun, ?_, ?_⟩
    · intro s e h
      exact absurd h (by simp)
    · refine ⟨fun h => absurd h (by simp), ?_⟩
      rintro ⟨hwk', -⟩
      exact absurd hwk' hwk

/-- C6 witness: February 2026 (whose 1st is a Sunday): week 1 is
Feb 1 – Feb 7, and week 5 fails with `WeekOutOfRange 5` because its
start (Mar 1) falls after Feb 28. -/
theorem week_range_spec_witness :
    week_range ⟨2026, 2, 1⟩ 1 = .ok (⟨2026, 2, 1⟩, ⟨2026, 2, 7⟩) ∧
    NaiveDate.toDays ⟨2026, 2, 1⟩ =
      sundayOnOrBefore (NaiveDate.toDays ⟨2026, 2, 1⟩) + ((1 : Int) - 1) * 7 ∧
    week_range ⟨2026, 2, 1⟩ 5 = .error (.WeekOutOfRange 5) := by
  have h1 := week_range_spec ⟨2026, 2, 1⟩ 1 (by decide) (by decide) (by decide)
  have h5 := week_range_spec ⟨2026, 2, 1⟩ 5 (by decide) (by decide) (by decide)
  have hok : week_range ⟨2026, 2, 1⟩ 1 = .ok (⟨2026, 2, 1⟩, ⟨2026, 2, 7⟩) := rfl
  refine ⟨hok, ?_, ?_⟩
  · exact (h1.2.2.1 ⟨2026, 2, 1⟩ ⟨2026, 2, 7⟩ hok).1
  · exact h5.2.2.2.mpr ⟨by norm_num, by decide⟩

/-! ## Month-string parsing characterization (C5) -/

lemma digitsValAux_lt : ∀ (l : List Char) (acc v : Nat),
    digitsValAux acc l = some v → v < (acc + 1) * 10 ^ l.length
  | [], acc, v => by
    intro h
    simp only [digitsValAux, Option.some.injEq] at h
    subst h
    simp
  | c :: cs, acc, v => by
    intro h
    simp only [digitsValAux] at h
    cases hd : digit? c with
    | none => rw [hd] at h; exact absurd h (by simp)
    | some d =>
      rw [hd] at h
      have hd9 : d ≤ 9 := by
        unfold digit? at hd
        split at hd
        · simp only [Option.some.injEq] at hd
          omega
        · exact absurd hd (by simp)
      have ih := digitsValAux_lt cs (acc * 10 + d) v h
      have hpow : (10 : Nat) ^ (c :: cs).length = 10 ^ cs.length * 10 := by
        rw [List.length_cons, pow_succ]
      rw [hpow]
      calc v < (acc * 10 + d + 1) * 10 ^ cs.length := ih
        _ ≤ ((acc + 1) * 10) * 10 ^ cs.length :=
            Nat.mul_le_mul_right _ (by omega)
        _ = (acc + 1) * (10 ^ cs.length * 10) := by ring

lemma digitsVal?_lt {l : List Char} {v : Nat} (h : digitsVal? l = some v) :
    v < 10 ^ l.length := by
  unfold digitsVal? at h
  split at h
  · exact absurd h (by simp)
  · simpa using digitsValAux_lt l 0 v h

set_option maxRecDepth 4000 in
lemma parseI32_eq_spec (ys : List Char) (h : ys.length ≤ 4) :
    parseI32 ys = signedFieldVal? ys := by
  cases ys with
  | nil => rfl
  | cons c t =>
    have hlen : t.length ≤ 3 := by
      simp only [List.length_cons] at h
      omega
    have hlt : ∀ v : Nat, digitsVal? t = some v → (v : Int) < 2 ^ 31 := by
      intro v hv
      have h1 := digitsVal?_lt hv
      have h2 : v < 10 ^ 4 :=
        lt_of_lt_of_le h1 (Nat.pow_le_pow_right (by norm_num) (by omega))
      exact_mod_cast lt_of_lt_of_le h2 (by norm_num)
    have hlt' : ∀ v : Nat, digitsVal? (c :: t) = some v → (v : Int) < 2 ^ 31 := by
      intro v hv
      have h1 := digitsVal?_lt hv
      have h2 : v < 10 ^ 4 :=
        lt_of_lt_of_le h1 (Nat.pow_le_pow_right (by norm_num) (by simpa using h))
      exact_mod_cast lt_of_lt_of_le h2 (by norm_num)
    simp only [parseI32, signedFieldVal?]
    by_cases hc1 : c = '-'
    · simp only [if_pos hc1]
      cases hd : digitsVal? t with
      | none => rfl
      | some v =>
        rw [Option.some_bind, Option.map_some', if_pos (le_of_lt (hlt v hd))]
    · simp only [if_neg hc1]
      by_cases hc2 : c = '+'
      · simp only [if_pos hc2]
        cases hd : digitsVal? t with
        | none => rfl
        | some v =>
          rw [Option.some_bind, Option.map_some', if_pos (hlt v hd)]
      · simp only [if_neg hc2]
        cases hd : digitsVal? (c :: t) with
        | none => rfl
        | some v =>
          rw [Option.some_bind, Option.map_some', if_pos (hlt' v hd)]

set_option maxRecDepth 4000 in
lemma parseU32_eq_spec (ms : List Char) (h : ms.length ≤ 2) :
    parseU32 ms = unsignedFieldVal? ms := by
  cases ms with
  | nil => rfl
  | cons c t =>
    have hlt : ∀ v : Nat, digitsVal? t = some v → v < 2 ^ 32 := by
      intro v hv
      have h1 := digitsVal?_lt hv
      have hlen : t.length ≤ 1 := by
        simp only [List.length_cons] at h
        omega
      have h2 : v < 10 ^ 2 :=
        lt_of_lt_of_le h1 (Nat.pow_le_pow_right (by norm_num) (by omega))
      omega
    have hlt' : ∀ v : Nat, digitsVal? (c :: t) = some v → v < 2 ^ 32 := by
      intro v hv
      have h1 := digitsVal?_lt hv
      have h2 : v < 10 ^ 2 :=
        lt_of_lt_of_le h1 (Nat.pow_le_pow_right (by norm_num) (by simpa using h))
      omega
    simp only [parseU32, unsignedFieldVal?]
    by_cases hc : c = '+'
    · simp only [if_pos hc]
      cases hd : digitsVal? t with
      | none => rfl
      | some v =>
        rw [Option.some_bind, if_pos (hlt v hd)]
    · simp only [if_neg hc]
      cases hd : digitsVal? (c :: t) with
      | none => rfl
      | some v =>
        rw [Option.some_bind, if_pos (hlt' v hd)]

lemma signedFieldVal?_bounds {ys : List Char} {y : Int} (h4 : ys.length = 4)
    (h : signedFieldVal? ys = some y) : -1000 < y ∧ y < 10000 := by
  cases ys with
  | nil => exact absurd h (by simp [signedFieldVal?])
  | cons c t =>
    have hlen : t.length = 3 := by
      simp only [List.length_cons] at h4
      omega
    simp only [signedFieldVal?] at h
    by_cases hc1 : c = '-'
    · rw [if_pos hc1] at h
      cases hd : digitsVal? t with
      | none => rw [hd] at h; exact absurd h (by simp)
      | some v =>
        rw [hd] at h
        have hv : -(v : Int) = y := by
          have h' : some (-(v : Int)) = some y := h
          injection h'
        have := digitsVal?_lt hd
        rw [hlen] at this
        constructor <;> omega
    · rw [if_neg hc1] at h
      by_cases hc2 : c = '+'
      · rw [if_pos hc2] at h
        cases hd : digitsVal? t with
        | none => rw [hd] at h; exact absurd h (by simp)
        | some v =>
          rw [hd] at h
          have hv : (v : Int) = y := by
            have h' : some ((v : Int)) = some y := h
            injection h'
          have := digitsVal?_lt hd
          rw [hlen] at this
          constructor <;> omega
      · rw [if_neg hc2] at h
        cases hd : digitsVal? (c :: t) with
        | none => rw [hd] at h; exact absurd h (by simp)
        | some v =>
          rw [hd] at h
          have hv : (v : Int) = y := by
            have h' : some ((v : Int)) = some y := h
            injection h'
          have := digitsVal?_lt hd
          rw [List.length_cons, hlen] at this
          constructor <;> omega

lemma from_ymd_first (y m : Int) (hy1 : -1000 < y) (hy2 : y < 10000) :
    from_ymd_opt y m 1 = if 1 ≤ m ∧ m ≤ 12 then some ⟨y, m, 1⟩ else none := by
  unfold from_ymd_opt
  have hdim := daysInMonth_pos y m
  have hmin : chronoMinYear ≤ y := by
    show (-262144 : Int) ≤ y
    omega
  have hmax : y ≤ chronoMaxYear := by
    show y ≤ (262143 : Int)
    omega
  by_cases h : 1 ≤ m ∧ m ≤ 12
  · rw [if_pos ⟨h.1, h.2, le_refl 1, hdim, hmin, hmax⟩, if_pos h]
  · rw [if_neg (fun hc => h ⟨hc.1, hc.2.1⟩), if_neg h]

/-- C5 (amended): `parse_month` succeeds exactly on strings that split
at the first `/` into a 4-character year field and a 2-character month
field, each an optionally sign-prefixed (`+`/`-` for the year, `+` for
the month) nonempty ASCII-decimal-digit string, with the month value in
1–12, and then returns the first day of that month; every other input
(wrong field width, missing separator, a field that is not an optionally
signed digit string, or month outside 1–12) fails with `InvalidMonth`. -/
theorem parse_month_characterization (s : String) :
    parse_month s =
      match monthSpecParse s with
      | some (y, m) => .ok ⟨y, m, 1⟩
      | none => .error .InvalidMonth := by
  unfold parse_month monthSpecParse
  cases hsp : splitOnce '/' s.data with
  | none => rfl
  | some p =>
    obtain ⟨ys, ms⟩ := p
    dsimp only
    by_cases hlen : ys.length = 4 ∧ ms.length = 2
    · simp only [if_pos hlen]
      rw [parseI32_eq_spec ys (le_of_eq hlen.1), parseU32_eq_spec ms (le_of_eq hlen.2)]
      cases hy : signedFieldVal? ys with
      | none => rfl
      | some y =>
        cases hm : unsignedFieldVal? ms with
        | none => rfl
        | some m =>
          obtain ⟨hb1, hb2⟩ := signedFieldVal?_bounds hlen.1 hy
          show (match from_ymd_opt y ((m : Int)) 1 with
            | some d => Except.ok d
            | none => Except.error WakalyzeError.InvalidMonth) =
            (match (if 1 ≤ m ∧ m ≤ 12 then some (y, (m : Int)) else none :
                Option (Int × Int)) with
            | some (a, b) => Except.ok ⟨a, b, 1⟩
            | none => Except.error WakalyzeError.InvalidMonth)
          rw [from_ymd_first y (m : Int) hb1 hb2]
          by_cases hm12 : 1 ≤ m ∧ m ≤ 12
          · have hm12c : (1 : Int) ≤ (m : Int) ∧ (m : Int) ≤ 12 := by exact_mod_cast hm12
            rw [if_pos hm12c, if_pos hm12]
          · have hm12c : ¬((1 : Int) ≤ (m : Int) ∧ (m : Int) ≤ 12) := by exact_mod_cast hm12
            rw [if_neg hm12c, if_neg hm12]
    · simp only [if_neg hlen]
